import Mathlib

/-!
Shallow embedding of the multipath flow-accumulation core
(`multipath_accum.py`: `labelFlats`, `flatThing`, `multipath`) over exact
rational arithmetic, together with proofs of the specification claims.

Grids are curried functions from row and column indices to values; the
dimensions `R` (rows) and `C` (columns) are passed explicitly, mirroring the
numpy arrays of the source.
-/

attribute [local semireducible] Rat.add Rat.mul Rat.inv Rat.sub

namespace Multipath

abbrev Cell : Type := ℕ × ℕ

abbrev QGrid : Type := ℕ → ℕ → ℚ

/-- The 8 offsets of the 3×3 kernel with the centre excluded: the index pairs
of the array `cc` in `labelFlats`. -/
def kernelOffsets : List (ℕ × ℕ) := [(0,0),(0,1),(0,2),(1,0),(1,2),(2,0),(2,1),(2,2)]

/-- Interior cells: cells with a full 3×3 neighbourhood, i.e. the slice
`[1:-1,1:-1]` of an `R×C` array. -/
def interiorB (R C : ℕ) (p : Cell) : Bool :=
  decide (1 ≤ p.1 ∧ p.1 + 1 < R ∧ 1 ≤ p.2 ∧ p.2 + 1 < C)

/-- Number of the 8 nearest neighbours whose elevation is ≥ the centre: the
value of `out` at an interior cell after the convolution loop of
`labelFlats`. -/
def nbrCount (E : QGrid) (p : Cell) : ℕ :=
  (kernelOffsets.filter fun ij =>
    decide (E p.1 p.2 ≤ E (p.1 - 1 + ij.1) (p.2 - 1 + ij.2))).length

/-- The boolean array `flat = out == 8` of `labelFlats`: true exactly at
interior cells all 8 of whose neighbours have elevation ≥ the centre. -/
def flatMaskB (R C : ℕ) (E : QGrid) (p : Cell) : Bool :=
  interiorB R C p && (nbrCount E p == 8)

/-- All index pairs of an `R×C` array. -/
def allCells (R C : ℕ) : Finset Cell := Finset.range R ×ˢ Finset.range C

/-- 8-connectivity adjacency: distinct cells at Chebyshev distance ≤ 1. -/
def adjB (p q : Cell) : Bool :=
  decide (¬ p = q ∧ p.1 ≤ q.1 + 1 ∧ q.1 ≤ p.1 + 1 ∧ p.2 ≤ q.2 + 1 ∧ q.2 ≤ p.2 + 1)

/-- One expansion step used to compute 8-connected components of the flat
mask: add every in-range masked cell adjacent to the current set. -/
def growOnce (R C : ℕ) (E : QGrid) (S : Finset Cell) : Finset Cell :=
  S ∪ (allCells R C).filter
    (fun q => flatMaskB R C E q = true ∧ ∃ p ∈ S, flatMaskB R C E p = true ∧ adjB p q = true)

/-- The 8-connected component of the flat mask containing `c`, obtained by
saturating the expansion step (the grid has `R*C` cells, so `R*C` iterations
reach the fixed point). -/
def comp (R C : ℕ) (E : QGrid) (c : Cell) : Finset Cell := (growOnce R C E)^[R * C] {c}

/-- All cells of an `R×C` array in raster (row-major) scan order. -/
def cellList (R C : ℕ) : List Cell :=
  (List.range R).flatMap fun r => (List.range C).map fun c => (r, c)

/-- Decidable connectivity test within the flat mask. -/
def connB (R C : ℕ) (E : QGrid) (p q : Cell) : Bool := decide (q ∈ comp R C E p)

/-- The label array produced by `measure.label(flat, background=False)` in
`labelFlats` (an external library call, embedded by its documented
behaviour): masked cells of one 8-connected component share one positive id,
ids are assigned in raster order of each component's first cell, and all
unmasked cells get 0. -/
def labelAt (R C : ℕ) (E : QGrid) (p : Cell) : ℕ :=
  if flatMaskB R C E p = true then (cellList R C).findIdx (connB R C E p) + 1 else 0

/-- The flat-id grid `flats` used by `multipath`. -/
def flatsOf (R C : ℕ) (E : QGrid) : ℕ → ℕ → ℕ := fun r c => labelAt R C E (r, c)

/-- Membership mask `F = flats == e_c[1]` of `flatThing`, restricted to the
array extent. -/
def memberB (R C : ℕ) (flats : ℕ → ℕ → ℕ) (fid : ℕ) (p : Cell) : Bool :=
  decide (p.1 < R ∧ p.2 < C ∧ flats p.1 p.2 = fid)

/-- The mask `expand = nd.binary_dilation(F, structure=np.ones((3,3)))` of
`flatThing`: cells within Chebyshev distance 1 of some member cell. -/
def dilateB (R C : ℕ) (flats : ℕ → ℕ → ℕ) (fid : ℕ) (q : Cell) : Bool :=
  decide (∃ p ∈ allCells R C, memberB R C flats fid p = true ∧
    p.1 ≤ q.1 + 1 ∧ q.1 ≤ p.1 + 1 ∧ p.2 ≤ q.2 + 1 ∧ q.2 ≤ p.2 + 1)

/-- Pour points of `flatThing`: in-range cells of the dilation ring
(`~F & expand`) whose elevation is ≤ the flat's elevation. -/
def pourB (R C : ℕ) (flats : ℕ → ℕ → ℕ) (fid : ℕ) (elev : QGrid) (e : ℚ) (q : Cell) : Bool :=
  decide (q ∈ allCells R C) && !(memberB R C flats fid q) && dilateB R C flats fid q &&
    decide (elev q.1 q.2 ≤ e)

/-- The member cells of a flat region, as a finite set. -/
def memberSet (R C : ℕ) (flats : ℕ → ℕ → ℕ) (fid : ℕ) : Finset Cell :=
  (allCells R C).filter (fun p => memberB R C flats fid p = true)

/-- The pour points of a flat region, as a finite set. -/
def pourSet (R C : ℕ) (flats : ℕ → ℕ → ℕ) (fid : ℕ) (elev : QGrid) (e : ℚ) : Finset Cell :=
  (allCells R C).filter (fun q => pourB R C flats fid elev e q = true)

/-- The zonal sum `cSum = accum[F].sum()` of `flatThing`. -/
def zonalSum (R C : ℕ) (flats : ℕ → ℕ → ℕ) (fid : ℕ) (accum : QGrid) : ℚ :=
  ∑ p ∈ memberSet R C flats fid, accum p.1 p.2

/-- The number of pour points, the divisor `(elev[~F&expand]<=e_c[0]).sum()`
of `flatThing`. -/
def nPour (R C : ℕ) (flats : ℕ → ℕ → ℕ) (fid : ℕ) (elev : QGrid) (e : ℚ) : ℕ :=
  (pourSet R C flats fid elev e).card

/-- The function `flatThing(e_c, flats, accum, elev)`: member cells are set to
the zonal sum, each pour point receives the zonal sum divided by the number of
pour points, and every other cell keeps its value (the `np.where` selects the
unchanged branch for ring cells above the flat's elevation, and for every ring
cell when there is no pour point). -/
def flatThing (e : ℚ) (fid : ℕ) (flats : ℕ → ℕ → ℕ) (accum : QGrid) (elev : QGrid)
    (R C : ℕ) : QGrid :=
  fun r c =>
    if memberB R C flats fid (r, c) = true then zonalSum R C flats fid accum
    else if pourB R C flats fid elev e (r, c) = true then
      accum r c + zonalSum R C flats fid accum / (nPour R C flats fid elev e : ℚ)
    else accum r c

/-- The nine index pairs of a 3×3 window. -/
def win9 : Finset (ℕ × ℕ) := Finset.range 3 ×ˢ Finset.range 3

/-- The array `diff = np.where(win < win[1,1], win[1,1] - win, 0)` at window
position `(a, b)` for the window `elev[y:y+3, x:x+3]`. -/
def windowDiff (E : QGrid) (y x a b : ℕ) : ℚ :=
  if E (y + a) (x + b) < E (y + 1) (x + 1) then E (y + 1) (x + 1) - E (y + a) (x + b) else 0

/-- The total downslope drop `diff.sum()`. -/
def totalDrop (E : QGrid) (y x : ℕ) : ℚ := ∑ ab ∈ win9, windowDiff E y x ab.1 ab.2

/-- The ordinary-cell distribution step
`accum[y:y+3,x:x+3] += diff / diff.sum() * accum[y+1,x+1]`. -/
def ordinaryStep (E : QGrid) (accum : QGrid) (y x : ℕ) : QGrid :=
  fun r c =>
    if y ≤ r ∧ r ≤ y + 2 ∧ x ≤ c ∧ x + 2 ≥ c then
      accum r c + windowDiff E y x (r - y) (c - x) / totalDrop E y x * accum (y + 1) (x + 1)
    else accum r c

/-- Number of interior cells, `(R-2)*(C-2)`. -/
def numInterior (R C : ℕ) : ℕ := (R - 2) * (C - 2)

/-- The interior cell addressed by flattened index `i`: the source flattens
the interior in Fortran (column-major) order, so `y = i % nrows`,
`x = i / nrows`, and the global cell is `(y+1, x+1)`. -/
def cellOfIdx (R : ℕ) (i : ℕ) : Cell := (i % (R - 2) + 1, i / (R - 2) + 1)

/-- The elevation field `combo[i]['e']`. -/
def comboE (R : ℕ) (E : QGrid) (i : ℕ) : ℚ := E (cellOfIdx R i).1 (cellOfIdx R i).2

/-- The flat-id field `combo[i]['c']`. -/
def comboC (R C : ℕ) (E : QGrid) (i : ℕ) : ℕ := labelAt R C E (cellOfIdx R i)

/-- Comparison used for the stable argsort on `(elevation, flat-id)`: because
ties on the full key are broken by the original index, sorting by this total
antisymmetric order yields exactly the stable mergesort result of
`np.argsort(combo, order=['e','c'], kind='mergesort')`. -/
def keyLe (R C : ℕ) (E : QGrid) (i j : ℕ) : Bool :=
  decide (comboE R E i < comboE R E j ∨ (comboE R E i = comboE R E j ∧
    (comboC R C E i < comboC R C E j ∨ (comboC R C E i = comboC R C E j ∧ i ≤ j))))

/-- The index order `indexArray` built by the stable argsort
`np.argsort(combo, order=['e','c'], kind='mergesort')`: interior indices
sorted by elevation ascending, then flat-id ascending.  Because `keyLe` is
total and antisymmetric, every sorted permutation of the indices coincides
with the stable sort result, so any correct sort embeds the library call. -/
def indexArray (R C : ℕ) (E : QGrid) : List ℕ :=
  List.insertionSort (fun i j => keyLe R C E i j = true) (List.range (numInterior R C))

/-- The order in which the sweep actually visits cells:
`indexArray[::-1]`. -/
def visitOrder (R C : ℕ) (E : QGrid) : List ℕ := (indexArray R C E).reverse

/-- Sweep state: the accumulation grid and the current-flat cursor `curC`
(elevation and flat id of the flat region being scanned, if any). -/
structure SweepState where
  accum : QGrid
  curC : Option (ℚ × ℕ)

/-- One iteration of the sweep loop of `multipath` at flattened index `i`. -/
def sweepStep (R C : ℕ) (E : QGrid) (flats : ℕ → ℕ → ℕ) (st : SweepState) (i : ℕ) :
    SweepState :=
  let p := cellOfIdx R i
  let fid := flats p.1 p.2
  if fid ≠ 0 then
    match st.curC with
    | some ef =>
      if ef.2 ≠ fid then
        ⟨flatThing ef.1 ef.2 flats st.accum E R C, some (comboE R E i, fid)⟩
      else ⟨st.accum, some (comboE R E i, fid)⟩
    | none => ⟨st.accum, some (comboE R E i, fid)⟩
  else
    let acc1 := match st.curC with
      | some ef => flatThing ef.1 ef.2 flats st.accum E R C
      | none => st.accum
    ⟨ordinaryStep E acc1 (i % (R - 2)) (i / (R - 2)), none⟩

/-- Initial sweep state: `accum = np.ones_like(elev)`, no current flat. -/
def initState : SweepState := ⟨fun _ _ => 1, none⟩

/-- The final sweep state of `multipath` (the loop performs no resolution
after the visiting order is exhausted). -/
def multipathState (R C : ℕ) (E : QGrid) : SweepState :=
  (visitOrder R C E).foldl (sweepStep R C E (flatsOf R C E)) initState

/-- The function `multipath(elev)`: the accumulation grid after the sweep. -/
def multipath (R C : ℕ) (E : QGrid) : QGrid := (multipathState R C E).accum

/-- The sweep state after the first `k` visited cells. -/
def sweepPrefix (R C : ℕ) (E : QGrid) (k : ℕ) : SweepState :=
  ((visitOrder R C E).take k).foldl (sweepStep R C E (flatsOf R C E)) initState

/-- Rendering of a grid function as a concrete `R×C` table of values. -/
def gridOut (R C : ℕ) (A : QGrid) : List (List ℚ) :=
  (List.range R).map fun r => (List.range C).map fun c => A r c

/-! ### The flat mask, 8-connectivity and the labelling of `labelFlats` -/

lemma interiorB_iff (R C : ℕ) (p : Cell) :
    interiorB R C p = true ↔ (1 ≤ p.1 ∧ p.1 + 1 < R ∧ 1 ≤ p.2 ∧ p.2 + 1 < C) := by
  simp [interiorB]

lemma flatMaskB_iff (R C : ℕ) (E : QGrid) (p : Cell) :
    flatMaskB R C E p = true ↔
      (interiorB R C p = true ∧ ∀ ij ∈ kernelOffsets,
        E p.1 p.2 ≤ E (p.1 - 1 + ij.1) (p.2 - 1 + ij.2)) := by
  unfold flatMaskB nbrCount
  rw [Bool.and_eq_true, beq_iff_eq]
  constructor
  · rintro ⟨hint, hlen⟩
    refine ⟨hint, fun ij hij => ?_⟩
    have hsub : (kernelOffsets.filter fun ij =>
        decide (E p.1 p.2 ≤ E (p.1 - 1 + ij.1) (p.2 - 1 + ij.2))).Sublist kernelOffsets :=
      List.filter_sublist kernelOffsets
    have heq := hsub.eq_of_length (by rw [hlen]; rfl)
    exact of_decide_eq_true (List.filter_eq_self.1 heq ij hij)
  · rintro ⟨hint, hall⟩
    refine ⟨hint, ?_⟩
    rw [List.filter_eq_self.2 fun a ha => decide_eq_true (hall a ha)]
    rfl

lemma adjB_iff (p q : Cell) :
    adjB p q = true ↔
      (p ≠ q ∧ p.1 ≤ q.1 + 1 ∧ q.1 ≤ p.1 + 1 ∧ p.2 ≤ q.2 + 1 ∧ q.2 ≤ p.2 + 1) := by
  simp [adjB]

lemma adjB_symm (p q : Cell) (h : adjB p q = true) : adjB q p = true := by
  rw [adjB_iff] at h ⊢
  obtain ⟨hne, h1, h2, h3, h4⟩ := h
  exact ⟨fun e => hne e.symm, by omega, by omega, by omega, by omega⟩

lemma mask_mem_allCells {R C : ℕ} {E : QGrid} {p : Cell}
    (h : flatMaskB R C E p = true) : p ∈ allCells R C := by
  have hint := ((flatMaskB_iff R C E p).1 h).1
  rw [interiorB_iff] at hint
  simp only [allCells, Finset.mem_product, Finset.mem_range]
  omega

lemma adj_offset {p q : Cell} (h1 : 1 ≤ p.1) (h2 : 1 ≤ p.2) (hadj : adjB p q = true) :
    ∃ ij ∈ kernelOffsets, q = (p.1 - 1 + ij.1, p.2 - 1 + ij.2) := by
  obtain ⟨pa, pb⟩ := p
  obtain ⟨qa, qb⟩ := q
  rw [adjB_iff] at hadj
  obtain ⟨hne, hb1, hb2, hb3, hb4⟩ := hadj
  simp only at h1 h2 hb1 hb2 hb3 hb4
  have hne' : pa ≠ qa ∨ pb ≠ qb := by
    by_contra hcon
    push_neg at hcon
    exact hne (by rw [hcon.1, hcon.2])
  refine ⟨(qa + 1 - pa, qb + 1 - pb), ?_, ?_⟩
  · simp only [kernelOffsets, List.mem_cons, List.not_mem_nil, or_false, Prod.mk.injEq]
    omega
  · rw [Prod.mk.injEq]
    omega

/-- One-step adjacency inside the flat mask: the relation whose reflexive
transitive closure is 8-connectivity of flat candidate cells. -/
def stepRel (R C : ℕ) (E : QGrid) (p q : Cell) : Prop :=
  flatMaskB R C E p = true ∧ flatMaskB R C E q = true ∧ adjB p q = true

lemma stepRel_symmetric (R C : ℕ) (E : QGrid) : Symmetric (stepRel R C E) :=
  fun p q h => ⟨h.2.1, h.1, adjB_symm p q h.2.2⟩

lemma stepRel_elev_le {R C : ℕ} {E : QGrid} {p q : Cell} (h : stepRel R C E p q) :
    E p.1 p.2 ≤ E q.1 q.2 := by
  obtain ⟨hp, hq, hadj⟩ := h
  have hint := ((flatMaskB_iff R C E p).1 hp).1
  rw [interiorB_iff] at hint
  obtain ⟨ij, hij, rfl⟩ := adj_offset hint.1 hint.2.2.1 hadj
  exact ((flatMaskB_iff R C E p).1 hp).2 ij hij

lemma stepRel_elev_eq {R C : ℕ} {E : QGrid} {p q : Cell} (h : stepRel R C E p q) :
    E p.1 p.2 = E q.1 q.2 :=
  le_antisymm (stepRel_elev_le h) (stepRel_elev_le (stepRel_symmetric R C E h))

lemma reflTransGen_elev_eq {R C : ℕ} {E : QGrid} {p q : Cell}
    (h : Relation.ReflTransGen (stepRel R C E) p q) : E p.1 p.2 = E q.1 q.2 := by
  induction h with
  | refl => rfl
  | tail _ hstep ih => exact ih.trans (stepRel_elev_eq hstep)

lemma subset_growOnce (R C : ℕ) (E : QGrid) (S : Finset Cell) : S ⊆ growOnce R C E S :=
  Finset.subset_union_left

lemma growOnce_mono {R C : ℕ} {E : QGrid} {S T : Finset Cell} (h : S ⊆ T) :
    growOnce R C E S ⊆ growOnce R C E T := by
  intro x hx
  rcases Finset.mem_union.1 hx with h1 | h1
  · exact Finset.mem_union_left _ (h h1)
  · refine Finset.mem_union_right _ ?_
    rw [Finset.mem_filter] at h1 ⊢
    obtain ⟨hall, hm, p, hp, hmp, hadj⟩ := h1
    exact ⟨hall, hm, p, h hp, hmp, hadj⟩

lemma subset_iterate_growOnce (R C : ℕ) (E : QGrid) :
    ∀ (k : ℕ) (S : Finset Cell), S ⊆ (growOnce R C E)^[k] S
  | 0, S => Finset.Subset.refl S
  | k + 1, S => by
    rw [Function.iterate_succ_apply]
    exact (subset_growOnce R C E S).trans (subset_iterate_growOnce R C E k _)

lemma growOnce_subset_allCells {R C : ℕ} {E : QGrid} {S : Finset Cell}
    (h : S ⊆ allCells R C) : growOnce R C E S ⊆ allCells R C :=
  Finset.union_subset h (Finset.filter_subset _ _)

lemma iterate_growOnce_subset_allCells {R C : ℕ} {E : QGrid} {S : Finset Cell}
    (h : S ⊆ allCells R C) (k : ℕ) : (growOnce R C E)^[k] S ⊆ allCells R C := by
  induction k with
  | zero => exact h
  | succ n ih =>
    rw [Function.iterate_succ_apply']
    exact growOnce_subset_allCells ih

lemma card_allCells (R C : ℕ) : (allCells R C).card = R * C := by
  simp [allCells]

lemma comp_fixed {R C : ℕ} {E : QGrid} {c : Cell} (hc : c ∈ allCells R C) :
    growOnce R C E (comp R C E c) = comp R C E c := by
  have hsing : ({c} : Finset Cell) ⊆ allCells R C := Finset.singleton_subset_iff.2 hc
  have key : ∀ k : ℕ,
      growOnce R C E ((growOnce R C E)^[k] {c}) = (growOnce R C E)^[k] {c} ∨
        k < ((growOnce R C E)^[k] {c}).card := by
    intro k
    induction k with
    | zero => right; simp
    | succ n ih =>
      by_cases hg : growOnce R C E ((growOnce R C E)^[n] {c}) = (growOnce R C E)^[n] {c}
      · left
        rw [Function.iterate_succ_apply', hg, hg]
      · rcases ih with hfix | hlt
        · exact absurd hfix hg
        · right
          rw [Function.iterate_succ_apply']
          have hss : (growOnce R C E)^[n] {c} ⊂ growOnce R C E ((growOnce R C E)^[n] {c}) :=
            Finset.ssubset_iff_subset_ne.2 ⟨subset_growOnce R C E _, fun e => hg e.symm⟩
          have := Finset.card_lt_card hss
          omega
  rcases key (R * C) with hfix | hlt
  · exact hfix
  · exfalso
    have hle := Finset.card_le_card
      (iterate_growOnce_subset_allCells (E := E) hsing (R * C))
    rw [card_allCells] at hle
    omega

lemma mem_comp_self (R C : ℕ) (E : QGrid) (c : Cell) : c ∈ comp R C E c :=
  subset_iterate_growOnce R C E (R * C) {c} (Finset.mem_singleton_self c)

lemma comp_closed {R C : ℕ} {E : QGrid} {c q q' : Cell} (hc : c ∈ allCells R C)
    (hq : q ∈ comp R C E c) (hs : stepRel R C E q q') : q' ∈ comp R C E c := by
  have hmem : q' ∈ growOnce R C E (comp R C E c) :=
    Finset.mem_union_right _ (Finset.mem_filter.2
      ⟨mask_mem_allCells hs.2.1, hs.2.1, q, hq, hs.1, hs.2.2⟩)
  rwa [comp_fixed hc] at hmem

lemma mem_iterate_reflTransGen {R C : ℕ} {E : QGrid} {c : Cell} :
    ∀ (k : ℕ) (q : Cell), q ∈ (growOnce R C E)^[k] {c} →
      Relation.ReflTransGen (stepRel R C E) c q
  | 0, q, hq => by
    rw [Function.iterate_zero_apply, Finset.mem_singleton] at hq
    rw [hq]
  | k + 1, q, hq => by
    rw [Function.iterate_succ_apply'] at hq
    rcases Finset.mem_union.1 hq with h1 | h1
    · exact mem_iterate_reflTransGen k q h1
    · rw [Finset.mem_filter] at h1
      obtain ⟨_, hmq, p, hp, hmp, hadj⟩ := h1
      exact (mem_iterate_reflTransGen k p hp).tail ⟨hmp, hmq, hadj⟩

lemma mem_comp_iff_reflTransGen {R C : ℕ} {E : QGrid} {c : Cell}
    (hc : flatMaskB R C E c = true) (q : Cell) :
    q ∈ comp R C E c ↔ Relation.ReflTransGen (stepRel R C E) c q := by
  constructor
  · exact mem_iterate_reflTransGen (R * C) q
  · intro h
    induction h with
    | refl => exact mem_comp_self R C E c
    | tail _ hstep ih => exact comp_closed (mask_mem_allCells hc) ih hstep

lemma connB_iff (R C : ℕ) (E : QGrid) (p q : Cell) :
    connB R C E p q = true ↔ q ∈ comp R C E p := by
  simp [connB]

lemma mem_cellList_iff (R C : ℕ) (p : Cell) : p ∈ cellList R C ↔ p.1 < R ∧ p.2 < C := by
  obtain ⟨a, b⟩ := p
  simp only [cellList, List.mem_flatMap, List.mem_map, List.mem_range, Prod.mk.injEq]
  constructor
  · rintro ⟨r, hr, c2, hc2, rfl, rfl⟩
    exact ⟨hr, hc2⟩
  · rintro ⟨h1, h2⟩
    exact ⟨a, h1, b, h2, rfl, rfl⟩

lemma findIdx_connB_lt {R C : ℕ} {E : QGrid} {p : Cell} (hp : flatMaskB R C E p = true) :
    (cellList R C).findIdx (connB R C E p) < (cellList R C).length := by
  apply List.findIdx_lt_length_of_exists
  refine ⟨p, ?_, (connB_iff R C E p p).2 (mem_comp_self R C E p)⟩
  rw [mem_cellList_iff]
  have hint := ((flatMaskB_iff R C E p).1 hp).1
  rw [interiorB_iff] at hint
  omega

lemma labelAt_pos_iff (R C : ℕ) (E : QGrid) (p : Cell) :
    0 < labelAt R C E p ↔ flatMaskB R C E p = true := by
  unfold labelAt
  by_cases h : flatMaskB R C E p = true <;> simp [h]

lemma comp_eq_of_reflTransGen {R C : ℕ} {E : QGrid} {p q : Cell}
    (hp : flatMaskB R C E p = true) (hq : flatMaskB R C E q = true)
    (h : Relation.ReflTransGen (stepRel R C E) p q) : comp R C E p = comp R C E q := by
  ext d
  rw [mem_comp_iff_reflTransGen hp, mem_comp_iff_reflTransGen hq]
  have hsym := Relation.ReflTransGen.symmetric (stepRel_symmetric R C E)
  exact ⟨fun h' => Relation.ReflTransGen.trans (hsym h) h', fun h' => h.trans h'⟩

lemma labelAt_eq_iff {R C : ℕ} {E : QGrid} {p q : Cell} (hp : flatMaskB R C E p = true)
    (hq : flatMaskB R C E q = true) :
    labelAt R C E p = labelAt R C E q ↔ Relation.ReflTransGen (stepRel R C E) p q := by
  constructor
  · intro h
    unfold labelAt at h
    rw [if_pos hp, if_pos hq] at h
    have hn : (cellList R C).findIdx (connB R C E p) =
        (cellList R C).findIdx (connB R C E q) := by omega
    have hlt : (cellList R C).findIdx (connB R C E p) < (cellList R C).length :=
      findIdx_connB_lt hp
    have hlt2 : (cellList R C).findIdx (connB R C E q) < (cellList R C).length :=
      findIdx_connB_lt hq
    have hw1 : connB R C E p
        ((cellList R C).get ⟨(cellList R C).findIdx (connB R C E p), hlt⟩) = true :=
      List.findIdx_get
    have hw2 : connB R C E q
        ((cellList R C).get ⟨(cellList R C).findIdx (connB R C E q), hlt2⟩) = true :=
      List.findIdx_get
    have hff : (⟨(cellList R C).findIdx (connB R C E q), hlt2⟩ :
        Fin (cellList R C).length) =
        ⟨(cellList R C).findIdx (connB R C E p), hlt⟩ := Fin.ext hn.symm
    rw [hff] at hw2
    have hr1 := (mem_comp_iff_reflTransGen hp _).1 ((connB_iff R C E p _).1 hw1)
    have hr2 := (mem_comp_iff_reflTransGen hq _).1 ((connB_iff R C E q _).1 hw2)
    exact hr1.trans (Relation.ReflTransGen.symmetric (stepRel_symmetric R C E) hr2)
  · intro h
    have hcomp := comp_eq_of_reflTransGen hp hq h
    unfold labelAt
    rw [if_pos hp, if_pos hq]
    have hfun : connB R C E p = connB R C E q := by
      funext d
      unfold connB
      rw [hcomp]
    rw [hfun]

/-- Claim C8: `labelFlats` labels a cell positively exactly when it is an
interior cell all 8 of whose neighbours have elevation ≥ its own; all other
cells, the border among them, get 0; and two flat candidates share a label
exactly when they are 8-connected through candidate cells, so each maximal
8-connected component bears one unique positive id. -/
theorem flat_labeling_correct (R C : ℕ) (E : QGrid) :
    (∀ p : Cell, 0 < labelAt R C E p ↔
        (interiorB R C p = true ∧ ∀ ij ∈ kernelOffsets,
          E p.1 p.2 ≤ E (p.1 - 1 + ij.1) (p.2 - 1 + ij.2))) ∧
    (∀ p : Cell, interiorB R C p = false → labelAt R C E p = 0) ∧
    (∀ p q : Cell, flatMaskB R C E p = true → flatMaskB R C E q = true →
        (labelAt R C E p = labelAt R C E q ↔
          Relation.ReflTransGen (stepRel R C E) p q)) := by
  refine ⟨fun p => (labelAt_pos_iff R C E p).trans (flatMaskB_iff R C E p), ?_,
    fun p q hp hq => labelAt_eq_iff hp hq⟩
  intro p hpB
  have : ¬ flatMaskB R C E p = true := by
    rw [flatMaskB_iff]
    rintro ⟨hi, -⟩
    rw [hpB] at hi
    exact Bool.false_ne_true hi
  unfold labelAt
  rw [if_neg this]

/-- Concrete instantiation of `flat_labeling_correct` on the 4×4 all-ones
grid, whose four interior cells form one flat component. -/
theorem flat_labeling_correct_witness :
    labelAt 4 4 (fun _ _ => 1) (1, 1) = labelAt 4 4 (fun _ _ => 1) (2, 2) ↔
      Relation.ReflTransGen (stepRel 4 4 fun _ _ => 1) (1, 1) (2, 2) :=
  (flat_labeling_correct 4 4 (fun _ _ => 1)).2.2 (1, 1) (2, 2) (by decide) (by decide)

/-! ### Elementary facts about `flatThing` -/

lemma pourB_iff (R C : ℕ) (flats : ℕ → ℕ → ℕ) (fid : ℕ) (elev : QGrid) (e : ℚ) (q : Cell) :
    pourB R C flats fid elev e q = true ↔
      (q ∈ allCells R C ∧ memberB R C flats fid q = false ∧ dilateB R C flats fid q = true ∧
        elev q.1 q.2 ≤ e) := by
  simp only [pourB, Bool.and_eq_true, Bool.not_eq_true', decide_eq_true_eq]
  tauto

lemma pour_not_member {R C : ℕ} {flats : ℕ → ℕ → ℕ} {fid : ℕ} {elev : QGrid} {e : ℚ}
    {q : Cell} (h : pourB R C flats fid elev e q = true) :
    memberB R C flats fid q = false :=
  ((pourB_iff R C flats fid elev e q).1 h).2.1

lemma flatThing_pour {R C : ℕ} {e : ℚ} {fid : ℕ} {flats : ℕ → ℕ → ℕ} {accum elev : QGrid}
    {q : Cell} (h : pourB R C flats fid elev e q = true) :
    flatThing e fid flats accum elev R C q.1 q.2 =
      accum q.1 q.2 + zonalSum R C flats fid accum / (nPour R C flats fid elev e : ℚ) := by
  simp [flatThing, pour_not_member h, h]

/-- Claim C5: immediately after `flatThing` resolves a flat region, every
member cell holds the region's zonal sum (the sum of the members' accumulated
values at the moment of resolution), not divided by the member count. -/
theorem flat_members_get_zonal_sum (R C : ℕ) (e : ℚ) (fid : ℕ) (flats : ℕ → ℕ → ℕ)
    (accum elev : QGrid) (q : Cell) (h : memberB R C flats fid q = true) :
    flatThing e fid flats accum elev R C q.1 q.2 =
      ∑ p ∈ memberSet R C flats fid, accum p.1 p.2 := by
  simp [flatThing, h, zonalSum]

/-- Concrete instantiation of `flat_members_get_zonal_sum` on a 3×3 grid with
a one-cell flat region. -/
theorem flat_members_get_zonal_sum_witness :
    memberB 3 3 (fun r c => if r = 1 ∧ c = 1 then 1 else 0) 1 (1, 1) = true ∧
      flatThing 1 1 (fun r c => if r = 1 ∧ c = 1 then 1 else 0) (fun _ _ => 1) (fun _ _ => 1)
        3 3 1 1 =
        ∑ p ∈ memberSet 3 3 (fun r c => if r = 1 ∧ c = 1 then 1 else 0) 1,
          (fun (_ _ : ℕ) => (1 : ℚ)) p.1 p.2 :=
  ⟨by decide, flat_members_get_zonal_sum 3 3 1 1 (fun r c => if r = 1 ∧ c = 1 then 1 else 0)
    (fun _ _ => 1) (fun _ _ => 1) (1, 1) (by decide)⟩

/-- Claim C4: the cells receiving outlet flow from a resolved flat region are
exactly the in-range cells of the 8-connected dilation of the member set,
minus the members, whose elevation is ≤ the flat's elevation; each receives
`zonalSum / nPour`, every other non-member cell is unchanged, and with at
least one pour point the total added over the pour points is the zonal sum. -/
theorem flat_outlet_distribution (R C : ℕ) (e : ℚ) (fid : ℕ) (flats : ℕ → ℕ → ℕ)
    (accum elev : QGrid) :
    (∀ q : Cell, pourB R C flats fid elev e q = true ↔
        (q ∈ allCells R C ∧ memberB R C flats fid q = false ∧
          dilateB R C flats fid q = true ∧ elev q.1 q.2 ≤ e)) ∧
    (∀ q : Cell, pourB R C flats fid elev e q = true →
        flatThing e fid flats accum elev R C q.1 q.2 =
          accum q.1 q.2 + zonalSum R C flats fid accum / (nPour R C flats fid elev e : ℚ)) ∧
    (∀ q : Cell, memberB R C flats fid q = false → pourB R C flats fid elev e q = false →
        flatThing e fid flats accum elev R C q.1 q.2 = accum q.1 q.2) ∧
    (1 ≤ nPour R C flats fid elev e →
        ∑ q ∈ pourSet R C flats fid elev e,
            (flatThing e fid flats accum elev R C q.1 q.2 - accum q.1 q.2) =
          zonalSum R C flats fid accum) := by
  refine ⟨pourB_iff R C flats fid elev e, fun q h => flatThing_pour h, ?_, ?_⟩
  · intro q hm hp
    simp [flatThing, hm, hp]
  · intro hn
    have hsum : ∀ q ∈ pourSet R C flats fid elev e,
        flatThing e fid flats accum elev R C q.1 q.2 - accum q.1 q.2 =
          zonalSum R C flats fid accum / (nPour R C flats fid elev e : ℚ) := by
      intro q hq
      rw [flatThing_pour (Finset.mem_filter.1 hq).2]
      ring
    have hne : (nPour R C flats fid elev e : ℚ) ≠ 0 :=
      Nat.cast_ne_zero.2 (Nat.one_le_iff_ne_zero.1 hn)
    rw [Finset.sum_congr rfl hsum, Finset.sum_const, nsmul_eq_mul]
    show (nPour R C flats fid elev e : ℚ) *
        (zonalSum R C flats fid accum / (nPour R C flats fid elev e : ℚ)) =
      zonalSum R C flats fid accum
    field_simp

/-- Concrete instantiation of `flat_outlet_distribution` on a 3×3 grid: the
one-cell flat at the centre pours into its 8 neighbours. -/
theorem flat_outlet_distribution_witness :
    1 ≤ nPour 3 3 (fun r c => if r = 1 ∧ c = 1 then 1 else 0) 1 (fun _ _ => 1) 1 ∧
      ∑ q ∈ pourSet 3 3 (fun r c => if r = 1 ∧ c = 1 then 1 else 0) 1 (fun _ _ => 1) 1,
          (flatThing 1 1 (fun r c => if r = 1 ∧ c = 1 then 1 else 0) (fun _ _ => 1)
              (fun _ _ => 1) 3 3 q.1 q.2 - (fun (_ _ : ℕ) => (1 : ℚ)) q.1 q.2) =
        zonalSum 3 3 (fun r c => if r = 1 ∧ c = 1 then 1 else 0) 1 (fun _ _ => 1) :=
  ⟨by decide, (flat_outlet_distribution 3 3 1 1 (fun r c => if r = 1 ∧ c = 1 then 1 else 0)
    (fun _ _ => 1) (fun _ _ => 1)).2.2.2 (by decide)⟩

/-- Claim C6: when a flat region has no pour point, `flatThing` changes no
cell outside the member set (the `np.where` guard selects the unchanged
branch everywhere on the dilation ring, so the division by zero never reaches
the accumulation grid). -/
theorem flat_no_pour_points_no_change (R C : ℕ) (e : ℚ) (fid : ℕ) (flats : ℕ → ℕ → ℕ)
    (accum elev : QGrid) (h : nPour R C flats fid elev e = 0) :
    ∀ q : Cell, memberB R C flats fid q = false →
      flatThing e fid flats accum elev R C q.1 q.2 = accum q.1 q.2 := by
  intro q hm
  have hp : pourB R C flats fid elev e q = false := by
    by_contra hc
    have hq : q ∈ pourSet R C flats fid elev e :=
      Finset.mem_filter.2 ⟨((pourB_iff R C flats fid elev e q).1
        (Bool.of_not_eq_false hc)).1, Bool.of_not_eq_false hc⟩
    have : 0 < nPour R C flats fid elev e := Finset.card_pos.2 ⟨q, hq⟩
    omega
  simp [flatThing, hm, hp]

/-- Concrete instantiation of `flat_no_pour_points_no_change`: a one-cell flat
at elevation 1 whose whole ring lies at elevation 2 has no pour point, and no
outside cell changes. -/
theorem flat_no_pour_points_no_change_witness :
    nPour 3 3 (fun r c => if r = 1 ∧ c = 1 then 1 else 0) 1
        (fun r c => if r = 1 ∧ c = 1 then 1 else 2) 1 = 0 ∧
      memberB 3 3 (fun r c => if r = 1 ∧ c = 1 then 1 else 0) 1 (0, 0) = false ∧
      flatThing 1 1 (fun r c => if r = 1 ∧ c = 1 then 1 else 0) (fun _ _ => 1)
          (fun r c => if r = 1 ∧ c = 1 then 1 else 2) 3 3 0 0 = 1 :=
  ⟨by decide, by decide,
    flat_no_pour_points_no_change 3 3 1 1 (fun r c => if r = 1 ∧ c = 1 then 1 else 0)
      (fun _ _ => 1) (fun r c => if r = 1 ∧ c = 1 then 1 else 2) (by decide) (0, 0) (by decide)⟩

/-! ### Elementary facts about the ordinary-cell distribution step -/

lemma ordinaryStep_in_window (E accum : QGrid) (y x a b : ℕ) (ha : a < 3) (hb : b < 3) :
    ordinaryStep E accum y x (y + a) (x + b) =
      accum (y + a) (x + b) +
        windowDiff E y x a b / totalDrop E y x * accum (y + 1) (x + 1) := by
  have hcond : y ≤ y + a ∧ y + a ≤ y + 2 ∧ x ≤ x + b ∧ x + 2 ≥ x + b := by omega
  simp only [ordinaryStep, if_pos hcond, Nat.add_sub_cancel_left]

/-- Claim C3: an ordinary cell with positive total downslope drop adds
`A[center] * drop / total` to each window cell, and the amounts added over the
3×3 window sum exactly to the centre's accumulated value. -/
theorem ordinary_step_conserves_flow (E accum : QGrid) (y x : ℕ) (h : 0 < totalDrop E y x) :
    (∀ a b : ℕ, a < 3 → b < 3 →
        ordinaryStep E accum y x (y + a) (x + b) =
          accum (y + a) (x + b) +
            windowDiff E y x a b / totalDrop E y x * accum (y + 1) (x + 1)) ∧
    ∑ ab ∈ win9, (ordinaryStep E accum y x (y + ab.1) (x + ab.2) -
        accum (y + ab.1) (x + ab.2)) =
      accum (y + 1) (x + 1) := by
  refine ⟨fun a b ha hb => ordinaryStep_in_window E accum y x a b ha hb, ?_⟩
  have hterm : ∀ ab ∈ win9,
      ordinaryStep E accum y x (y + ab.1) (x + ab.2) - accum (y + ab.1) (x + ab.2) =
        windowDiff E y x ab.1 ab.2 / totalDrop E y x * accum (y + 1) (x + 1) := by
    intro ab hab
    have h1 : ab.1 < 3 := (Finset.mem_range.1 (Finset.mem_product.1 hab).1)
    have h2 : ab.2 < 3 := (Finset.mem_range.1 (Finset.mem_product.1 hab).2)
    rw [ordinaryStep_in_window E accum y x ab.1 ab.2 h1 h2]
    ring
  rw [Finset.sum_congr rfl hterm, ← Finset.sum_mul, ← Finset.sum_div]
  rw [← totalDrop, div_self h.ne', one_mul]

/-- Concrete instantiation of `ordinary_step_conserves_flow`: the centre of a
3×3 grid strictly above its 8 neighbours distributes all of its unit flow. -/
theorem ordinary_step_conserves_flow_witness :
    0 < totalDrop (fun r c => if r = 1 ∧ c = 1 then 2 else 1) 0 0 ∧
      ∑ ab ∈ win9,
          (ordinaryStep (fun r c => if r = 1 ∧ c = 1 then 2 else 1) (fun _ _ => 1) 0 0
              (0 + ab.1) (0 + ab.2) - (fun (_ _ : ℕ) => (1 : ℚ)) (0 + ab.1) (0 + ab.2)) =
        (fun (_ _ : ℕ) => (1 : ℚ)) (0 + 1) (0 + 1) :=
  ⟨by decide, (ordinary_step_conserves_flow (fun r c => if r = 1 ∧ c = 1 then 2 else 1)
    (fun _ _ => 1) 0 0 (by decide)).2⟩

/-! ### The visiting order -/

lemma keyLe_iff (R C : ℕ) (E : QGrid) (i j : ℕ) :
    keyLe R C E i j = true ↔
      (comboE R E i < comboE R E j ∨ (comboE R E i = comboE R E j ∧
        (comboC R C E i < comboC R C E j ∨ (comboC R C E i = comboC R C E j ∧ i ≤ j)))) := by
  simp [keyLe]

lemma keyLe_trans (R C : ℕ) (E : QGrid) (a b c : ℕ) (h1 : keyLe R C E a b = true)
    (h2 : keyLe R C E b c = true) : keyLe R C E a c = true := by
  rw [keyLe_iff] at h1 h2 ⊢
  rcases h1 with h1 | ⟨he1, hc1⟩
  · rcases h2 with h2 | ⟨he2, hc2⟩
    · exact Or.inl (h1.trans h2)
    · exact Or.inl (lt_of_lt_of_le h1 (le_of_eq he2))
  · rcases h2 with h2 | ⟨he2, hc2⟩
    · exact Or.inl (lt_of_le_of_lt (le_of_eq he1) h2)
    · exact Or.inr ⟨he1.trans he2, by omega⟩

lemma keyLe_total (R C : ℕ) (E : QGrid) (a b : ℕ) :
    keyLe R C E a b = true ∨ keyLe R C E b a = true := by
  rw [keyLe_iff, keyLe_iff]
  rcases lt_trichotomy (comboE R E a) (comboE R E b) with h | h | h
  · exact Or.inl (Or.inl h)
  · rcases lt_trichotomy (comboC R C E a) (comboC R C E b) with h' | h' | h'
    · exact Or.inl (Or.inr ⟨h, Or.inl h'⟩)
    · rcases Nat.le_total a b with hab | hab
      · exact Or.inl (Or.inr ⟨h, Or.inr ⟨h', hab⟩⟩)
      · exact Or.inr (Or.inr ⟨h.symm, Or.inr ⟨h'.symm, hab⟩⟩)
    · exact Or.inr (Or.inr ⟨h.symm, Or.inl h'⟩)
  · exact Or.inr (Or.inl h)

lemma indexArray_sorted (R C : ℕ) (E : QGrid) :
    (indexArray R C E).Pairwise (fun i j => keyLe R C E i j = true) := by
  haveI : IsTotal ℕ (fun i j => keyLe R C E i j = true) := ⟨keyLe_total R C E⟩
  haveI : IsTrans ℕ (fun i j => keyLe R C E i j = true) := ⟨keyLe_trans R C E⟩
  exact List.sorted_insertionSort _ _

lemma indexArray_perm (R C : ℕ) (E : QGrid) :
    (indexArray R C E).Perm (List.range (numInterior R C)) :=
  List.perm_insertionSort _ _

lemma mem_indexArray_iff (R C : ℕ) (E : QGrid) (i : ℕ) :
    i ∈ indexArray R C E ↔ i < numInterior R C := by
  rw [(indexArray_perm R C E).mem_iff, List.mem_range]

lemma mem_visitOrder_iff (R C : ℕ) (E : QGrid) (i : ℕ) :
    i ∈ visitOrder R C E ↔ i < numInterior R C := by
  rw [visitOrder, List.mem_reverse, mem_indexArray_iff]

lemma cellOfIdx_interior {R C : ℕ} {i : ℕ} (hi : i < numInterior R C) :
    interiorB R C (cellOfIdx R i) = true := by
  unfold numInterior at hi
  have hr : 0 < R - 2 := by
    rcases Nat.eq_zero_or_pos (R - 2) with h0 | h0
    · rw [h0, Nat.zero_mul] at hi
      omega
    · exact h0
  have hy : i % (R - 2) < R - 2 := Nat.mod_lt _ hr
  have hx : i / (R - 2) < C - 2 := by
    rw [Nat.div_lt_iff_lt_mul hr]
    rw [Nat.mul_comm] at hi
    exact hi
  rw [interiorB_iff]
  unfold cellOfIdx
  simp only
  revert hy hx
  generalize i % (R - 2) = y
  generalize i / (R - 2) = x
  intro hy hx
  omega

lemma cellOfIdx_injective {R C : ℕ} {i j : ℕ} (hi : i < numInterior R C)
    (hj : j < numInterior R C) (h : cellOfIdx R i = cellOfIdx R j) : i = j := by
  unfold numInterior at hi hj
  have hr : 0 < R - 2 := by
    rcases Nat.eq_zero_or_pos (R - 2) with h0 | h0
    · rw [h0, Nat.zero_mul] at hi
      omega
    · exact h0
  unfold cellOfIdx at h
  rw [Prod.mk.injEq] at h
  have h1 : i % (R - 2) = j % (R - 2) := by omega
  have h2 : i / (R - 2) = j / (R - 2) := by omega
  have di := Nat.div_add_mod i (R - 2)
  have dj := Nat.div_add_mod j (R - 2)
  rw [← h1, ← h2] at dj
  omega

lemma getD_eq_get (l : List ℕ) (d : ℕ) {n : ℕ} (h : n < l.length) :
    l.getD n d = l.get ⟨n, h⟩ := by
  simp [List.getD_eq_getElem?_getD, List.getElem?_eq_getElem h, List.get_eq_getElem]

lemma comboC_mask {R C : ℕ} {E : QGrid} {i : ℕ} {f : ℕ} (hf : f ≠ 0)
    (h : comboC R C E i = f) : flatMaskB R C E (cellOfIdx R i) = true := by
  rw [← labelAt_pos_iff]
  unfold comboC at h
  omega

lemma comboC_eq_elev {R C : ℕ} {E : QGrid} {i k : ℕ} {f : ℕ} (hf : f ≠ 0)
    (h1 : comboC R C E i = f) (h2 : comboC R C E k = f) : comboE R E i = comboE R E k := by
  have hmi := comboC_mask hf h1
  have hmk := comboC_mask hf h2
  have hlab : labelAt R C E (cellOfIdx R i) = labelAt R C E (cellOfIdx R k) := by
    unfold comboC at h1 h2
    rw [h1, h2]
  exact reflTransGen_elev_eq ((labelAt_eq_iff hmi hmk).1 hlab)

lemma keyLe_between {R C : ℕ} {E : QGrid} {i j k : ℕ} (h1 : keyLe R C E i j = true)
    (h2 : keyLe R C E j k = true) (he : comboE R E i = comboE R E k)
    (hc : comboC R C E i = comboC R C E k) :
    comboE R E j = comboE R E i ∧ comboC R C E j = comboC R C E i := by
  rw [keyLe_iff] at h1 h2
  have hej : comboE R E j = comboE R E i := by
    rcases h1 with h1 | ⟨hq1, -⟩
    · exfalso
      rcases h2 with h2 | ⟨hq2, -⟩
      · have hik := h1.trans h2
        rw [he] at hik
        exact lt_irrefl _ hik
      · rw [hq2, he] at h1
        exact lt_irrefl _ h1
    · exact hq1.symm
  have hX : comboC R C E i < comboC R C E j ∨
      (comboC R C E i = comboC R C E j ∧ i ≤ j) := by
    rcases h1 with h1 | ⟨-, hc1⟩
    · exfalso
      rw [hej] at h1
      exact lt_irrefl _ h1
    · exact hc1
  have hY : comboC R C E j < comboC R C E k ∨
      (comboC R C E j = comboC R C E k ∧ j ≤ k) := by
    rcases h2 with h2 | ⟨-, hc2⟩
    · exfalso
      rw [hej, he] at h2
      exact lt_irrefl _ h2
    · exact hc2
  exact ⟨hej, by omega⟩

/-- Claim C7: the order built by the stable argsort is a permutation of
exactly the `(R-2)*(C-2)` interior indices, each index maps uniquely to a
cell inside the border, and the positions holding any fixed positive flat-id
are contiguous. -/
theorem visit_order_perm_contiguous (R C : ℕ) (E : QGrid) :
    (indexArray R C E).Perm (List.range (numInterior R C)) ∧
    (∀ i ∈ indexArray R C E, interiorB R C (cellOfIdx R i) = true) ∧
    (∀ i j : ℕ, i < numInterior R C → j < numInterior R C →
        cellOfIdx R i = cellOfIdx R j → i = j) ∧
    (∀ p q r : ℕ, p ≤ q → q ≤ r → r < (indexArray R C E).length → ∀ f : ℕ, f ≠ 0 →
        comboC R C E ((indexArray R C E).getD p 0) = f →
        comboC R C E ((indexArray R C E).getD r 0) = f →
        comboC R C E ((indexArray R C E).getD q 0) = f) := by
  refine ⟨indexArray_perm R C E,
    fun i hi => cellOfIdx_interior ((mem_indexArray_iff R C E i).1 hi),
    fun i j hi hj h => cellOfIdx_injective hi hj h, ?_⟩
  intro p q r hpq hqr hr f hf hp hr'
  have hq : q < (indexArray R C E).length := lt_of_le_of_lt hqr hr
  have hp' : p < (indexArray R C E).length := lt_of_le_of_lt hpq hq
  rw [getD_eq_get _ _ hp'] at hp
  rw [getD_eq_get _ _ hr] at hr'
  rw [getD_eq_get _ _ hq]
  rcases eq_or_lt_of_le hpq with rfl | hpq'
  · exact hp
  rcases eq_or_lt_of_le hqr with rfl | hqr'
  · exact hr'
  have k1 : keyLe R C E ((indexArray R C E).get ⟨p, hp'⟩)
      ((indexArray R C E).get ⟨q, hq⟩) = true :=
    List.pairwise_iff_get.1 (indexArray_sorted R C E) ⟨p, hp'⟩ ⟨q, hq⟩ hpq'
  have k2 : keyLe R C E ((indexArray R C E).get ⟨q, hq⟩)
      ((indexArray R C E).get ⟨r, hr⟩) = true :=
    List.pairwise_iff_get.1 (indexArray_sorted R C E) ⟨q, hq⟩ ⟨r, hr⟩ hqr'
  have he := comboC_eq_elev hf hp hr'
  have hc : comboC R C E ((indexArray R C E).get ⟨p, hp'⟩) =
      comboC R C E ((indexArray R C E).get ⟨r, hr⟩) := by rw [hp, hr']
  have hbet := keyLe_between k1 k2 he hc
  rw [hbet.2, hp]

/-- Concrete instantiation of `visit_order_perm_contiguous` on the 4×4
all-ones grid, whose four interior cells form one flat region occupying all
four positions of the order. -/
theorem visit_order_perm_contiguous_witness :
    comboC 4 4 (fun _ _ => 1) ((indexArray 4 4 fun _ _ => 1).getD 1 0) = 6 :=
  (visit_order_perm_contiguous 4 4 (fun _ _ => 1)).2.2.2 0 1 3 (by decide) (by decide)
    (by decide) 6 (by decide) (by decide) (by decide)

/-! ### No ordinary cell processed by the sweep has zero total drop -/

lemma windowDiff_nonneg (E : QGrid) (y x a b : ℕ) : 0 ≤ windowDiff E y x a b := by
  unfold windowDiff
  split
  · rename_i h
    linarith
  · exact le_refl 0

/-- Claim C2: every interior cell the sweep processes as an ordinary cell
(flat-id 0) has at least one strictly lower neighbour, so its total downslope
drop is strictly positive and the undefined `total == 0` division can never
be reached during the sweep: no non-finite value is ever produced there. -/
theorem ordinary_cell_total_drop_pos (R C : ℕ) (E : QGrid) (i : ℕ)
    (hi : i ∈ visitOrder R C E)
    (h0 : flatsOf R C E (cellOfIdx R i).1 (cellOfIdx R i).2 = 0) :
    0 < totalDrop E (i % (R - 2)) (i / (R - 2)) := by
  rw [mem_visitOrder_iff] at hi
  have hint : interiorB R C (cellOfIdx R i) = true := cellOfIdx_interior hi
  have h0' : labelAt R C E (cellOfIdx R i) = 0 := h0
  have hmask : ¬ flatMaskB R C E (cellOfIdx R i) = true := by
    intro hm
    have := (labelAt_pos_iff R C E (cellOfIdx R i)).2 hm
    omega
  rw [flatMaskB_iff] at hmask
  push_neg at hmask
  obtain ⟨ij, hij, hlt⟩ := hmask hint
  apply Finset.sum_pos' fun ab _ => windowDiff_nonneg E _ _ ab.1 ab.2
  refine ⟨ij, ?_, ?_⟩
  · have hsub : ∀ ab ∈ kernelOffsets, ab ∈ win9 := by decide
    exact hsub ij hij
  · unfold cellOfIdx at hlt
    simp only [Nat.add_sub_cancel] at hlt
    unfold windowDiff
    rw [if_pos hlt]
    linarith

/-- Concrete instantiation of `ordinary_cell_total_drop_pos` on a 3×3 grid
whose centre stands above its neighbours. -/
theorem ordinary_cell_total_drop_pos_witness :
    0 < totalDrop (fun r c => if r = 1 ∧ c = 1 then 2 else 1) (0 % (3 - 2)) (0 / (3 - 2)) :=
  ordinary_cell_total_drop_pos 3 3 (fun r c => if r = 1 ∧ c = 1 then 2 else 1) 0
    (by decide) (by decide)

/-- Claim C10: an ordinary-cell distribution step with positive total drop
leaves the distributing centre's own accumulated value unchanged (the
centre's own drop term is 0). -/
theorem distribution_keeps_center (E accum : QGrid) (y x : ℕ) (_h : 0 < totalDrop E y x) :
    ordinaryStep E accum y x (y + 1) (x + 1) = accum (y + 1) (x + 1) := by
  rw [ordinaryStep_in_window E accum y x 1 1 (by omega) (by omega)]
  simp [windowDiff]

/-- Concrete instantiation of `distribution_keeps_center` at the centre of a
3×3 grid strictly above its 8 neighbours. -/
theorem distribution_keeps_center_witness :
    0 < totalDrop (fun r c => if r = 1 ∧ c = 1 then 2 else 1) 0 0 ∧
      ordinaryStep (fun r c => if r = 1 ∧ c = 1 then 2 else 1) (fun _ _ => 1) 0 0
          (0 + 1) (0 + 1) = (fun (_ _ : ℕ) => (1 : ℚ)) (0 + 1) (0 + 1) :=
  ⟨by decide, distribution_keeps_center (fun r c => if r = 1 ∧ c = 1 then 2 else 1)
    (fun _ _ => 1) 0 0 (by decide)⟩

/-! ### Monotonicity of the sweep -/

lemma memberB_iff (R C : ℕ) (flats : ℕ → ℕ → ℕ) (fid : ℕ) (p : Cell) :
    memberB R C flats fid p = true ↔ (p.1 < R ∧ p.2 < C ∧ flats p.1 p.2 = fid) := by
  simp [memberB]

lemma zonalSum_nonneg {R C : ℕ} {flats : ℕ → ℕ → ℕ} {fid : ℕ} {accum : QGrid}
    (hnn : ∀ r c, 0 ≤ accum r c) : 0 ≤ zonalSum R C flats fid accum :=
  Finset.sum_nonneg fun p _ => hnn p.1 p.2

lemma flatThing_mono {R C : ℕ} {e : ℚ} {fid : ℕ} {flats : ℕ → ℕ → ℕ} {accum elev : QGrid}
    (hnn : ∀ r c, 0 ≤ accum r c) :
    ∀ r c, accum r c ≤ flatThing e fid flats accum elev R C r c := by
  intro r c
  unfold flatThing
  by_cases hm : memberB R C flats fid (r, c) = true
  · rw [if_pos hm]
    have hrc := (memberB_iff R C flats fid (r, c)).1 hm
    have hmem : (r, c) ∈ memberSet R C flats fid := by
      rw [memberSet, Finset.mem_filter]
      refine ⟨?_, hm⟩
      simp only [allCells, Finset.mem_product, Finset.mem_range]
      exact ⟨hrc.1, hrc.2.1⟩
    show accum r c ≤ ∑ p ∈ memberSet R C flats fid, accum p.1 p.2
    have := Finset.single_le_sum (f := fun p : Cell => accum p.1 p.2)
      (fun p _ => hnn p.1 p.2) hmem
    simpa using this
  · rw [if_neg hm]
    by_cases hp : pourB R C flats fid elev e (r, c) = true
    · rw [if_pos hp]
      have hd : 0 ≤ zonalSum R C flats fid accum / (nPour R C flats fid elev e : ℚ) :=
        div_nonneg (zonalSum_nonneg hnn) (Nat.cast_nonneg _)
      linarith
    · rw [if_neg hp]

lemma flatThing_nonneg {R C : ℕ} {e : ℚ} {fid : ℕ} {flats : ℕ → ℕ → ℕ} {accum elev : QGrid}
    (hnn : ∀ r c, 0 ≤ accum r c) :
    ∀ r c, 0 ≤ flatThing e fid flats accum elev R C r c :=
  fun r c => (hnn r c).trans (flatThing_mono hnn r c)

lemma totalDrop_nonneg (E : QGrid) (y x : ℕ) : 0 ≤ totalDrop E y x :=
  Finset.sum_nonneg fun ab _ => windowDiff_nonneg E y x ab.1 ab.2

lemma ordinaryStep_mono {E accum : QGrid} (hnn : ∀ r c, 0 ≤ accum r c) (y x : ℕ) :
    ∀ r c, accum r c ≤ ordinaryStep E accum y x r c := by
  intro r c
  unfold ordinaryStep
  split
  · have h1 : 0 ≤ windowDiff E y x (r - y) (c - x) / totalDrop E y x * accum (y + 1) (x + 1) :=
      mul_nonneg (div_nonneg (windowDiff_nonneg E y x _ _) (totalDrop_nonneg E y x)) (hnn _ _)
    linarith
  · exact le_refl _

lemma ordinaryStep_nonneg {E accum : QGrid} (hnn : ∀ r c, 0 ≤ accum r c) (y x : ℕ) :
    ∀ r c, 0 ≤ ordinaryStep E accum y x r c :=
  fun r c => (hnn r c).trans (ordinaryStep_mono hnn y x r c)

lemma sweepStep_accum_cases (R C : ℕ) (E : QGrid) (flats : ℕ → ℕ → ℕ) (st : SweepState)
    (i : ℕ) :
    (sweepStep R C E flats st i).accum = st.accum ∨
    (∃ e f, (sweepStep R C E flats st i).accum = flatThing e f flats st.accum E R C) ∨
    (∃ acc1 : QGrid,
      (acc1 = st.accum ∨ ∃ e f, acc1 = flatThing e f flats st.accum E R C) ∧
        (sweepStep R C E flats st i).accum =
          ordinaryStep E acc1 (i % (R - 2)) (i / (R - 2))) := by
  unfold sweepStep
  rcases hc : st.curC with _ | ef
  · by_cases hf : flats (cellOfIdx R i).1 (cellOfIdx R i).2 ≠ 0
    · left
      simp [hf]
    · right; right
      exact ⟨st.accum, Or.inl rfl, by simp [hf]⟩
  · by_cases hf : flats (cellOfIdx R i).1 (cellOfIdx R i).2 ≠ 0
    · by_cases hne : ef.2 ≠ flats (cellOfIdx R i).1 (cellOfIdx R i).2
      · right; left
        exact ⟨ef.1, ef.2, by simp [hf, hne]⟩
      · left
        simp [hf, hne]
    · right; right
      exact ⟨flatThing ef.1 ef.2 flats st.accum E R C, Or.inr ⟨ef.1, ef.2, rfl⟩,
        by simp [hf]⟩

lemma sweepStep_mono {R C : ℕ} {E : QGrid} {flats : ℕ → ℕ → ℕ} {st : SweepState}
    (hnn : ∀ r c, 0 ≤ st.accum r c) (i : ℕ) :
    (∀ r c, st.accum r c ≤ (sweepStep R C E flats st i).accum r c) ∧
      ∀ r c, 0 ≤ (sweepStep R C E flats st i).accum r c := by
  rcases sweepStep_accum_cases R C E flats st i with h | ⟨e, f, h⟩ | ⟨acc1, hacc1, h⟩
  · rw [h]
    exact ⟨fun r c => le_refl _, hnn⟩
  · rw [h]
    exact ⟨flatThing_mono hnn, flatThing_nonneg hnn⟩
  · have hm1 : ∀ r c, st.accum r c ≤ acc1 r c := by
      rcases hacc1 with rfl | ⟨e, f, rfl⟩
      · exact fun r c => le_refl _
      · exact flatThing_mono hnn
    have hn1 : ∀ r c, 0 ≤ acc1 r c := fun r c => (hnn r c).trans (hm1 r c)
    rw [h]
    exact ⟨fun r c => (hm1 r c).trans (ordinaryStep_mono hn1 _ _ r c),
      ordinaryStep_nonneg hn1 _ _⟩

lemma sweepPrefix_succ (R C : ℕ) (E : QGrid) (k : ℕ) :
    sweepPrefix R C E (k + 1) =
      match (visitOrder R C E)[k]? with
      | some i => sweepStep R C E (flatsOf R C E) (sweepPrefix R C E k) i
      | none => sweepPrefix R C E k := by
  unfold sweepPrefix
  rw [List.take_succ]
  cases h : (visitOrder R C E)[k]? <;> simp [h, List.foldl_append]

lemma sweepPrefix_nonneg (R C : ℕ) (E : QGrid) :
    ∀ k r c, 0 ≤ (sweepPrefix R C E k).accum r c := by
  intro k
  induction k with
  | zero =>
    intro r c
    simp [sweepPrefix, initState]
  | succ n ih =>
    rw [sweepPrefix_succ]
    cases h : (visitOrder R C E)[n]? with
    | none => simpa only [h] using ih
    | some i =>
      simp only [h]
      exact (sweepStep_mono ih i).2

/-- Claim C9: when every ordinary interior cell processed by the sweep has
strictly positive total downslope drop, the accumulation grid starts at 1.0
everywhere and every single step of the sweep leaves every cell's value
unchanged or larger: ordinary cells add non-negative shares, a flat
resolution raises each member to the zonal sum and only adds to pour
points. -/
theorem sweep_monotone (R C : ℕ) (E : QGrid)
    (_H : ∀ i ∈ visitOrder R C E,
      flatsOf R C E (cellOfIdx R i).1 (cellOfIdx R i).2 = 0 →
        0 < totalDrop E (i % (R - 2)) (i / (R - 2))) :
    (∀ r c, (sweepPrefix R C E 0).accum r c = 1) ∧
      ∀ k r c, (sweepPrefix R C E k).accum r c ≤ (sweepPrefix R C E (k + 1)).accum r c := by
  constructor
  · intro r c
    simp [sweepPrefix, initState]
  · intro k r c
    rw [sweepPrefix_succ]
    cases h : (visitOrder R C E)[k]? with
    | none => simp only [h]; exact le_refl _
    | some i =>
      simp only [h]
      exact (sweepStep_mono (sweepPrefix_nonneg R C E k) i).1 r c

/-- Concrete instantiation of `sweep_monotone` on a 3×3 grid whose centre
stands above its neighbours. -/
theorem sweep_monotone_witness :
    (∀ i ∈ visitOrder 3 3 (fun r c => if r = 1 ∧ c = 1 then 2 else 1),
      flatsOf 3 3 (fun r c => if r = 1 ∧ c = 1 then 2 else 1) (cellOfIdx 3 i).1
        (cellOfIdx 3 i).2 = 0 →
        0 < totalDrop (fun r c => if r = 1 ∧ c = 1 then 2 else 1) (i % (3 - 2))
          (i / (3 - 2))) ∧
    (sweepPrefix 3 3 (fun r c => if r = 1 ∧ c = 1 then 2 else 1) 0).accum 1 1 ≤
      (sweepPrefix 3 3 (fun r c => if r = 1 ∧ c = 1 then 2 else 1) 1).accum 1 1 :=
  ⟨by decide,
    (sweep_monotone 3 3 (fun r c => if r = 1 ∧ c = 1 then 2 else 1) (by decide)).2 0 1 1⟩

/-! ### The sweep never resolves the final flat region -/

/-- Claim C1 is violated by the code: on the 3×3 all-ones grid the visiting
order ends while the cursor is still inside the flat region (the single
interior cell, labelled 5 here), the loop performs no final `flatThing` call,
and `multipath` returns the all-ones grid; performing the missing resolution
afterwards would add 1/8 to each of the region's 8 pour points, so the
returned grid differs from the one the claim requires. -/
theorem sweep_drops_final_flat :
    (multipathState 3 3 fun _ _ => 1).curC = some (1, 5) ∧
    gridOut 3 3 (multipath 3 3 fun _ _ => 1) =
      [[1, 1, 1], [1, 1, 1], [1, 1, 1]] ∧
    gridOut 3 3 (flatThing 1 5 (flatsOf 3 3 fun _ _ => 1) (multipath 3 3 fun _ _ => 1)
        (fun _ _ => 1) 3 3) =
      [[9/8, 9/8, 9/8], [9/8, 1, 9/8], [9/8, 9/8, 9/8]] :=
  ⟨by decide, by decide, by decide⟩

end Multipath
